import Mathlib

/-!
Verification of the core of a five-letter word-guessing solver.

The embedding follows the source program: `to_letter_mask`, `Word`,
`Outcome.compare`, `Pattern` with `matches` and `refine`, and the
minimax search `best_from` / `recommended_guess`.  Machine integers
(`u32`) are modelled as `Nat`; the bitwise complement `!m` of a `u32`
is modelled by xor with `2 ^ 32 - 1` (`not32`).
-/

namespace Wordle

/-- `to_letter_mask(c) = 1 << (c - 'a')` from the source. -/
def to_letter_mask (c : Nat) : Nat := 1 <<< (c - 97)

/-- A `Word` holds exactly five bytes (the `bytes: [u8; 5]` field).
The `letters` field of the source struct is derived data recomputed at
construction, so it is modelled as the function `Word.letters` below. -/
structure Word where
  bytes : Fin 5 → Nat

instance : DecidableEq Word := fun a b =>
  decidable_of_iff (a.bytes = b.bytes) (by cases a; cases b; simp)

/-- The derived 26-bit letter-presence set: the OR over all five
per-character masks, as computed by `Word::new`. -/
def Word.letters (w : Word) : Nat :=
  (List.finRange 5).foldl (fun acc i => acc ||| to_letter_mask (w.bytes i)) 0

/-- `goal.bytes.contains(&b)` from the source. -/
def Word.containsByte (w : Word) (b : Nat) : Bool :=
  (List.finRange 5).any (fun j => w.bytes j == b)

/-- Validity precondition maintained by the program's I/O layer:
every byte is an ASCII lowercase letter. -/
def Word.valid (w : Word) : Prop := ∀ i : Fin 5, 97 ≤ w.bytes i ∧ w.bytes i ≤ 122

instance (w : Word) : Decidable w.valid := by
  unfold Word.valid; infer_instance

/-- Convenience constructor for concrete five-letter words. -/
def mkWord (a b c d e : Nat) : Word := ⟨![a, b, c, d, e]⟩

inductive LetterOutcome where
  | Nowhere
  | Elsewhere
  | Here
deriving DecidableEq

/-- `Outcome([LetterOutcome; 5])` from the source. -/
structure Outcome where
  outcomes : Fin 5 → LetterOutcome

instance : DecidableEq Outcome := fun a b =>
  decidable_of_iff (a.outcomes = b.outcomes) (by cases a; cases b; simp)

/-- `Outcome::compare(goal, guess)` from the source: per position,
`Here` on byte equality, else `Elsewhere` on containment, else `Nowhere`. -/
def Outcome.compare (goal guess : Word) : Outcome :=
  ⟨fun i =>
    if goal.bytes i = guess.bytes i then LetterOutcome.Here
    else if goal.containsByte (guess.bytes i) then LetterOutcome.Elsewhere
    else LetterOutcome.Nowhere⟩

/-- The `Pattern` struct from the source. -/
structure Pattern where
  positive_letters : Nat
  negative_letters : Nat
  per_char : Fin 5 → Nat

instance : DecidableEq Pattern := fun a b =>
  decidable_of_iff
    (a.positive_letters = b.positive_letters ∧
     a.negative_letters = b.negative_letters ∧ a.per_char = b.per_char)
    (by cases a; cases b; simp)

/-- `Pattern::new()`: nothing known, all 26 letters allowed everywhere. -/
def Pattern.new : Pattern :=
  ⟨0, 0, fun _ => (1 <<< 26) - 1⟩

/-- Bitwise complement of a `u32`, as used by the source's `!m`. -/
def not32 (m : Nat) : Nat := 4294967295 ^^^ m

/-- `Pattern::matches` from the source. -/
def Pattern.matches (p : Pattern) (w : Word) : Bool :=
  if w.letters &&& p.positive_letters ≠ p.positive_letters then false
  else if w.letters &&& p.negative_letters ≠ 0 then false
  else (List.finRange 5).all (fun i => (p.per_char i &&& to_letter_mask (w.bytes i)) != 0)

/-- One iteration of the `for i in 0..5` loop body of `Pattern::refine`. -/
def Pattern.refineStep (w : Word) (o : Outcome) (p : Pattern) (i : Fin 5) : Pattern :=
  let m := to_letter_mask (w.bytes i)
  match o.outcomes i with
  | LetterOutcome.Nowhere =>
      { p with negative_letters := p.negative_letters ||| m,
               per_char := fun j => p.per_char j &&& not32 m }
  | LetterOutcome.Elsewhere =>
      { p with positive_letters := p.positive_letters ||| m,
               per_char := Function.update p.per_char i (p.per_char i &&& not32 m) }
  | LetterOutcome.Here =>
      { p with positive_letters := p.positive_letters ||| m,
               per_char := Function.update p.per_char i m }

/-- `Pattern::refine` from the source: fold the loop body over
positions `0..5` in order. -/
def Pattern.refine (p : Pattern) (w : Word) (o : Outcome) : Pattern :=
  (List.finRange 5).foldl (Pattern.refineStep w o) p

/- ### Bit-level helper lemmas -/

/-- One position of `refine`, written as the specification words it:
`Nowhere` adds the mask to the negative set and removes it from every
position's allowed set; `Elsewhere` adds it to the positive set and
removes it from position `i` only; `Here` adds it to the positive set
and pins position `i` to exactly that letter.  Removal is plain set
difference (`Nat.ldiff`). -/
def refineSpecStep (w : Word) (o : Outcome) (p : Pattern) (i : Fin 5) : Pattern :=
  let m := to_letter_mask (w.bytes i)
  match o.outcomes i with
  | LetterOutcome.Nowhere =>
      { p with negative_letters := p.negative_letters ||| m,
               per_char := fun j => Nat.ldiff (p.per_char j) m }
  | LetterOutcome.Elsewhere =>
      { p with positive_letters := p.positive_letters ||| m,
               per_char := Function.update p.per_char i (Nat.ldiff (p.per_char i) m) }
  | LetterOutcome.Here =>
      { p with positive_letters := p.positive_letters ||| m,
               per_char := Function.update p.per_char i m }

/-- The specification's description of `refine`: process the five
positions in order `0..4` with `refineSpecStep`. -/
def refineSpec (p : Pattern) (w : Word) (o : Outcome) : Pattern :=
  (List.finRange 5).foldl (refineSpecStep w o) p

/-- The word "angle". -/
def wANGLE : Word := mkWord 97 110 103 108 101

/-- The word "apple". -/
def wAPPLE : Word := mkWord 97 112 112 108 101

/-- The word "abcde". -/
def wABCDE : Word := mkWord 97 98 99 100 101

/-- The word "fghij". -/
def wFGHIJ : Word := mkWord 102 103 104 105 106

/-- The word "aaaaa". -/
def wAAAAA : Word := mkWord 97 97 97 97 97

/-- The all-`Nowhere` outcome. -/
def oAllNowhere : Outcome := ⟨fun _ => LetterOutcome.Nowhere⟩

/-- The all-`Elsewhere` outcome. -/
def oAllElsewhere : Outcome := ⟨fun _ => LetterOutcome.Elsewhere⟩

/-- The all-`Here` outcome. -/
def oAllHere : Outcome := ⟨fun _ => LetterOutcome.Here⟩

/-- A constraint in which the letter `a` has been removed from every
position's allowed set (reached from the empty constraint by refining
with guess "aaaaa" and an all-`Elsewhere` outcome). -/
def patternNoA : Pattern := Pattern.new.refine wAAAAA oAllElsewhere

/-- The source's `matches` test, written out as the specification
states it: contains all positive letters, no negative letters, and
each position's letter is a member of that position's allowed set. -/
def matchesSpec (p : Pattern) (w : Word) : Prop :=
  w.letters &&& p.positive_letters = p.positive_letters ∧
  w.letters &&& p.negative_letters = 0 ∧
  ∀ i : Fin 5, (p.per_char i).testBit (w.bytes i - 97) = true

/-- The session fold: starting from the empty constraint, refine once
per guess with the outcome computed against one fixed goal (the loop
of `main`, restricted to its single mutation point). -/
def play (goal : Word) (guesses : List Word) : Pattern :=
  guesses.foldl (fun p w => p.refine w (Outcome.compare goal w)) Pattern.new

/-- The inner counting fold of `recommended_guess`:
`goals.iter().fold(0, |c, &g| c + hypothetical_pattern.matches(g) as i32)`. -/
def matching_count (p : Pattern) (goals : List Word) : Int :=
  goals.foldl (fun c g => c + (if p.matches g then 1 else 0)) 0

/-- The per-goal value inside `min_confidence`: refine a copy of the
constraint with `compare(goal, guess)` and negate the remaining
match count. -/
def goal_confidence (p : Pattern) (goals : List Word) (guess goal : Word) : Int :=
  -(matching_count (p.refine guess (Outcome.compare goal guess)) goals)

/-- `min_confidence` of a candidate guess: the minimum of the per-goal
values (Rust `Iterator::min`, folded from the first element).  The
empty-goals case is unreachable: `best_from` models that panic as
`none` before this function is ever consulted. -/
def min_confidence (p : Pattern) (goals : List Word) (guess : Word) : Int :=
  match goals.map (goal_confidence p goals guess) with
  | [] => 0
  | c :: cs => cs.foldl min c

/-- The `best_from` closure of `recommended_guess`.  The fold mirrors
Rust's `max_by_key`, which keeps the accumulator only when it is
strictly greater, so among equal keys the later element wins.
`none` models the `unwrap` panics (empty pool or empty goals). -/
def best_from (p : Pattern) (goals pool : List Word) : Option (Word × Int) :=
  match goals with
  | [] => none
  | _ :: _ =>
      pool.foldl (fun acc guess =>
        let c := min_confidence p goals guess
        match acc with
        | none => some (guess, c)
        | some best => if best.2 > c then some best else some (guess, c)) none

/-- `recommended_guess` from the source: search the dictionary pool and
the goal pool, check `assert!(bdc >= bgc)` (failure modelled as
`none`), and prefer the goal-pool guess unless the dictionary guess is
better by more than one. -/
def recommended_guess (p : Pattern) (goals dict : List Word) : Option (Word × Int) :=
  match best_from p goals dict, best_from p goals goals with
  | some (bd, bdc), some (bg, bgc) =>
      if bdc ≥ bgc then
        (if bgc + 1 ≥ bdc then some (bg, bgc) else some (bd, bdc))
      else none
  | _, _ => none

/-- Spec-side score ingredient: the worst case (maximum over goals) of
the number of goal words still matching after the candidate guess is
played against that goal. -/
def worstCase (p : Pattern) (goals : List Word) (guess : Word) : Int :=
  match goals.map (fun g => matching_count (p.refine guess (Outcome.compare g guess)) goals) with
  | [] => 0
  | c :: cs => cs.foldl max c

/-- Spec-side selection predicate: `w` occurs in `pool`, attains the
maximal score, and is the last occurrence attaining it. -/
def isLastBest (f : Word → Int) (pool : List Word) (w : Word) : Prop :=
  ∃ l1 l2, pool = l1 ++ w :: l2 ∧ (∀ v ∈ l1, f v ≤ f w) ∧ (∀ v ∈ l2, f v < f w)

/-- The fold step of `best_from`, abstracted over the scoring function
(identical to the lambda inside `best_from`). -/
def maxByStep (f : Word → Int) (acc : Option (Word × Int)) (guess : Word) :
    Option (Word × Int) :=
  match acc with
  | none => some (guess, f guess)
  | some best => if best.2 > f guess then some best else some (guess, f guess)

theorem to_letter_mask_eq_pow (c : Nat) : to_letter_mask c = 2 ^ (c - 97) := by
  simp [to_letter_mask, Nat.shiftLeft_eq]

theorem testBit_to_letter_mask (c k : Nat) :
    (to_letter_mask c).testBit k = decide (c - 97 = k) := by
  rw [to_letter_mask_eq_pow, Nat.testBit_two_pow]

theorem and_two_pow_ne_zero (x t : Nat) : x &&& 2 ^ t ≠ 0 ↔ x.testBit t = true := by
  constructor
  · intro h
    obtain ⟨i, hi⟩ := Nat.ne_zero_implies_bit_true h
    rw [Nat.testBit_and, Nat.testBit_two_pow, Bool.and_eq_true] at hi
    obtain ⟨hx, ht⟩ := hi
    cases of_decide_eq_true ht
    exact hx
  · intro h hz
    have h0 := congrArg (fun n => n.testBit t) hz
    simp only [Nat.testBit_and, Nat.testBit_two_pow, h, Nat.zero_testBit] at h0
    simp at h0

theorem and_letter_mask_ne_zero (x c : Nat) :
    x &&& to_letter_mask c ≠ 0 ↔ x.testBit (c - 97) = true := by
  rw [to_letter_mask_eq_pow]
  exact and_two_pow_ne_zero x (c - 97)

theorem testBit_letters (w : Word) (k : Nat) :
    w.letters.testBit k = true ↔ ∃ i : Fin 5, w.bytes i - 97 = k := by
  have main : ∀ (l : List (Fin 5)) (init : Nat),
      ((l.foldl (fun acc i => acc ||| to_letter_mask (w.bytes i)) init).testBit k = true ↔
        init.testBit k = true ∨ ∃ i ∈ l, w.bytes i - 97 = k) := by
    intro l
    induction l with
    | nil => simp
    | cons x xs ih =>
        intro init
        simp only [List.foldl_cons, ih, Nat.testBit_or, Bool.or_eq_true,
          testBit_to_letter_mask, decide_eq_true_eq, List.mem_cons]
        constructor
        · rintro (⟨h | h⟩ | ⟨i, hi, h⟩)
          · exact Or.inl h
          · exact Or.inr ⟨x, Or.inl rfl, h⟩
          · exact Or.inr ⟨i, Or.inr hi, h⟩
        · rintro (h | ⟨i, hi | hi, h⟩)
          · exact Or.inl (Or.inl h)
          · subst hi; exact Or.inl (Or.inr h)
          · exact Or.inr ⟨i, hi, h⟩
  rw [Word.letters, main]
  simp [List.mem_finRange]

theorem containsByte_iff (w : Word) (b : Nat) :
    w.containsByte b = true ↔ ∃ j : Fin 5, w.bytes j = b := by
  simp [Word.containsByte, List.any_eq_true, List.mem_finRange]

/-- For valid (lowercase) bytes, the letter masks are injective. -/
theorem valid_byte_mask_inj {b c : Nat} (hb : 97 ≤ b) (hc : 97 ≤ c)
    (h : b - 97 = c - 97) : b = c := by
  omega

/- ### Spec-worded refinement step (for the refinement claim on `refine`) -/

theorem and_not32_eq_ldiff {x m t : Nat} (hx : x < 2 ^ 32) (hm : m = 2 ^ t)
    (_ht : t < 32) : x &&& not32 m = Nat.ldiff x m := by
  apply Nat.eq_of_testBit_eq
  intro k
  have h32 : (4294967295 : Nat) = 2 ^ 32 - 1 := by norm_num
  rw [Nat.testBit_and, Nat.testBit_ldiff, not32, Nat.testBit_xor, hm,
    Nat.testBit_two_pow, h32, Nat.testBit_two_pow_sub_one]
  by_cases hk : k < 32
  · simp [hk, Bool.xor_comm]
  · have hxk : x.testBit k = false :=
      Nat.testBit_lt_two_pow
        (lt_of_lt_of_le hx (Nat.pow_le_pow_right (by norm_num) (le_of_not_lt hk)))
    simp [hk, hxk]

theorem refineStep_eq_spec (w : Word) (o : Outcome) (p : Pattern) (i : Fin 5)
    (hw : Word.valid w) (hp : ∀ j, p.per_char j < 2 ^ 32) :
    Pattern.refineStep w o p i = refineSpecStep w o p i := by
  have hb := hw i
  have ht : w.bytes i - 97 < 32 := by omega
  unfold Pattern.refineStep refineSpecStep
  cases ho : o.outcomes i
  · simp only [ho]
    congr 1
    funext j
    exact and_not32_eq_ldiff (hp j) (to_letter_mask_eq_pow _) ht
  · simp only [ho]
    congr 1
    rw [and_not32_eq_ldiff (hp i) (to_letter_mask_eq_pow _) ht]
  · simp only [ho]

theorem refineSpecStep_bound (w : Word) (o : Outcome) (p : Pattern) (i : Fin 5)
    (hw : Word.valid w) (hp : ∀ j, p.per_char j < 2 ^ 32) :
    ∀ j, (refineSpecStep w o p i).per_char j < 2 ^ 32 := by
  have hb := hw i
  have hm : to_letter_mask (w.bytes i) < 2 ^ 32 := by
    rw [to_letter_mask_eq_pow]
    exact Nat.pow_lt_pow_right (by norm_num) (by omega)
  have hld : ∀ x j2, x < 2 ^ 32 → Nat.ldiff x j2 < 2 ^ 32 := by
    intro x j2 hx
    apply Nat.lt_pow_two_of_testBit
    intro k hk
    rw [Nat.testBit_ldiff]
    have hxk : x.testBit k = false :=
      Nat.testBit_lt_two_pow
        (lt_of_lt_of_le hx (Nat.pow_le_pow_right (by norm_num) hk))
    simp [hxk]
  unfold refineSpecStep
  cases ho : o.outcomes i <;> simp only [ho] <;> intro j
  · exact hld _ _ (hp j)
  · by_cases hij : j = i
    · subst hij; rw [Function.update_same]; exact hld _ _ (hp j)
    · rw [Function.update_noteq hij]; exact hp j
  · by_cases hij : j = i
    · subst hij; rw [Function.update_same]; exact hm
    · rw [Function.update_noteq hij]; exact hp j

theorem refine_eq_spec_fold (w : Word) (o : Outcome) (hw : Word.valid w) :
    ∀ (l : List (Fin 5)) (p : Pattern), (∀ j, p.per_char j < 2 ^ 32) →
      l.foldl (Pattern.refineStep w o) p = l.foldl (refineSpecStep w o) p := by
  intro l
  induction l with
  | nil => intro p _; rfl
  | cons i rest ih =>
      intro p hp
      rw [List.foldl_cons, List.foldl_cons, refineStep_eq_spec w o p i hw hp]
      exact ih _ (refineSpecStep_bound w o p i hw hp)

/-- C5: `refine` processes the five positions in order `0..4` and acts
at each position exactly as the specification describes (`Nowhere`:
mask into `negative_letters` and removed from every allowed set;
`Elsewhere`: mask into `positive_letters` and removed from position
`i`'s allowed set only; `Here`: mask into `positive_letters` and
position `i` pinned to exactly that letter), for every valid guess
word and every constraint whose allowed sets fit in a `u32`. -/
theorem refine_follows_spec (p : Pattern) (w : Word) (o : Outcome)
    (hw : Word.valid w) (hp : ∀ j, p.per_char j < 2 ^ 32) :
    p.refine w o = refineSpec p w o :=
  refine_eq_spec_fold w o hw (List.finRange 5) p hp

/- ### A generic fold-invariant helper -/

theorem foldl_preserves {α β : Type} (P : α → Prop) (f : α → β → α) :
    ∀ (l : List β) (a : α), P a → (∀ x y, P x → P (f x y)) → P (l.foldl f a) := by
  intro l
  induction l with
  | nil => intro a h _; exact h
  | cons b bs ih => intro a h hstep; exact ih (f a b) (hstep a b h) hstep

/- ### Concrete words used in scenarios -/

/- ### Claim theorems -/

theorem compare_spec_aux (goal guess : Word) (i : Fin 5) :
    ((Outcome.compare goal guess).outcomes i = LetterOutcome.Here ↔
        guess.bytes i = goal.bytes i) ∧
    ((Outcome.compare goal guess).outcomes i = LetterOutcome.Elsewhere ↔
        guess.bytes i ≠ goal.bytes i ∧ ∃ j : Fin 5, goal.bytes j = guess.bytes i) ∧
    ((Outcome.compare goal guess).outcomes i = LetterOutcome.Nowhere ↔
        guess.bytes i ≠ goal.bytes i ∧ ∀ j : Fin 5, goal.bytes j ≠ guess.bytes i) := by
  simp only [Outcome.compare]
  by_cases he : goal.bytes i = guess.bytes i
  · simp [he]
  · have he2 : guess.bytes i ≠ goal.bytes i := fun h => he h.symm
    by_cases hc : goal.containsByte (guess.bytes i) = true
    · have hex := (containsByte_iff goal (guess.bytes i)).mp hc
      simp [he, hc, he2, hex]
    · have hnex : ∀ j : Fin 5, goal.bytes j ≠ guess.bytes i := by
        intro j hj
        exact hc ((containsByte_iff goal (guess.bytes i)).mpr ⟨j, hj⟩)
      simp [he, hc, he2, hnex]

/-- C1: for every goal and guess word, `compare(goal, guess)` at each
position `i` is `Here` iff `guess[i] == goal[i]`; otherwise it is
`Elsewhere` iff the letter `guess[i]` occurs at some position of
`goal`; otherwise it is `Nowhere`. -/
theorem compare_here_elsewhere_nowhere (goal guess : Word) (i : Fin 5) :
    ((Outcome.compare goal guess).outcomes i = LetterOutcome.Here ↔
        guess.bytes i = goal.bytes i) ∧
    ((Outcome.compare goal guess).outcomes i = LetterOutcome.Elsewhere ↔
        guess.bytes i ≠ goal.bytes i ∧ ∃ j : Fin 5, goal.bytes j = guess.bytes i) ∧
    ((Outcome.compare goal guess).outcomes i = LetterOutcome.Nowhere ↔
        guess.bytes i ≠ goal.bytes i ∧ ∀ j : Fin 5, goal.bytes j ≠ guess.bytes i) :=
  compare_spec_aux goal guess i

theorem matches_iff_aux (p : Pattern) (w : Word) :
    p.matches w = true ↔ matchesSpec p w := by
  unfold Pattern.matches matchesSpec
  by_cases h1 : w.letters &&& p.positive_letters = p.positive_letters
  · by_cases h2 : w.letters &&& p.negative_letters = 0
    · simp only [h1, h2, ne_eq, not_true_eq_false, if_false, List.all_eq_true,
        List.mem_finRange, true_and, forall_const]
      constructor
      · intro h i
        have hi := h i
        rw [bne_iff_ne] at hi
        exact (and_letter_mask_ne_zero _ _).mp hi
      · intro h i
        rw [bne_iff_ne]
        exact (and_letter_mask_ne_zero _ _).mpr (h i)
    · simp [h1, h2]
  · simp [h1]

/-- C6: `matches(constraint, word)` is true iff the word's letter-mask
contains all of `positive_letters`, meets none of `negative_letters`,
and each position's letter is allowed at that position; in particular
any word containing a negative letter is rejected. -/
theorem matches_characterization (p : Pattern) (w : Word) :
    p.matches w = true ↔ matchesSpec p w :=
  matches_iff_aux p w

/-- C7 counterexample: `compare("angle", "apple")` is not the sequence
`Here, Elsewhere, Nowhere, Nowhere, Elsewhere` stated by the spec —
already at position 1 the outcome is `Nowhere`, not `Elsewhere`. -/
theorem compare_angle_apple_refuted :
    Outcome.compare wANGLE wAPPLE ≠
      ⟨![LetterOutcome.Here, LetterOutcome.Elsewhere, LetterOutcome.Nowhere,
         LetterOutcome.Nowhere, LetterOutcome.Elsewhere]⟩ := by
  decide

/-- C7 amended: `compare` with goal "angle" and guess "apple" yields
the outcome sequence `Here, Nowhere, Nowhere, Here, Here`. -/
theorem compare_angle_apple :
    Outcome.compare wANGLE wAPPLE =
      ⟨![LetterOutcome.Here, LetterOutcome.Nowhere, LetterOutcome.Nowhere,
         LetterOutcome.Here, LetterOutcome.Here]⟩ := by
  decide

/-- C5 witness at a concrete input. -/
theorem refine_follows_spec_witness :
    Pattern.new.refine wABCDE oAllNowhere = refineSpec Pattern.new wABCDE oAllNowhere :=
  refine_follows_spec Pattern.new wABCDE oAllNowhere (by decide) (by decide)

/-- C8 counterexample: refining `patternNoA` (where `a` is disallowed
at position 0) with guess "aaaaa" and an all-`Here` outcome makes
position 0's allowed set regain the bit for `a`, so the new allowed
set is not a subset of the old one. -/
theorem refine_not_monotonic :
    ((patternNoA.refine wAAAAA oAllHere).per_char 0).testBit 0 = true ∧
    (patternNoA.per_char 0).testBit 0 = false := by
  decide

/-- C8 amended: after a single `refine`, every bit of a position's
allowed set was either already allowed there before the call or is the
bit of the guess's letter at that position (a `Here` outcome pins the
position to the guessed letter, which may regain that one bit;
everything else only narrows). -/
theorem refine_per_char_narrows (p : Pattern) (w : Word) (o : Outcome)
    (i : Fin 5) (k : Nat)
    (h : ((p.refine w o).per_char i).testBit k = true) :
    (p.per_char i).testBit k = true ∨
      (to_letter_mask (w.bytes i)).testBit k = true := by
  have main := foldl_preserves
      (fun q => ∀ i2 : Fin 5, ∀ k2 : Nat, (q.per_char i2).testBit k2 = true →
        (p.per_char i2).testBit k2 = true ∨
          (to_letter_mask (w.bytes i2)).testBit k2 = true)
      (Pattern.refineStep w o) (List.finRange 5) p
      (fun i2 k2 h2 => Or.inl h2)
      (by
      intro q j hq
      intro i2 k2 h2
      unfold Pattern.refineStep at h2
      cases ho : o.outcomes j <;> rw [ho] at h2 <;> simp only at h2
      · rw [Nat.testBit_and, Bool.and_eq_true] at h2
        exact hq i2 k2 h2.1
      · by_cases hij : i2 = j
        · subst hij
          rw [Function.update_same, Nat.testBit_and, Bool.and_eq_true] at h2
          exact hq i2 k2 h2.1
        · rw [Function.update_noteq hij] at h2
          exact hq i2 k2 h2
      · by_cases hij : i2 = j
        · subst hij
          rw [Function.update_same] at h2
          exact Or.inr h2
        · rw [Function.update_noteq hij] at h2
          exact hq i2 k2 h2)
  exact main i k h

/-- C8 amended witness at a concrete input. -/
theorem refine_per_char_narrows_witness :
    (Pattern.new.per_char 0).testBit 0 = true ∨
      (to_letter_mask (wAAAAA.bytes 0)).testBit 0 = true :=
  refine_per_char_narrows Pattern.new wAAAAA oAllHere 0 0 (by decide)

theorem and_eq_self_iff_subset (a b : Nat) :
    a &&& b = b ↔ ∀ k, b.testBit k = true → a.testBit k = true := by
  constructor
  · intro h k hk
    have h0 := congrArg (fun n => n.testBit k) h
    simp only [Nat.testBit_and, hk, Bool.and_true] at h0
    exact h0
  · intro h
    apply Nat.eq_of_testBit_eq
    intro k
    rw [Nat.testBit_and]
    cases hb : b.testBit k
    · simp
    · simp [h k hb]

theorem and_eq_zero_iff_none (a b : Nat) :
    a &&& b = 0 ↔ ∀ k, b.testBit k = true → a.testBit k = false := by
  constructor
  · intro h k hk
    have h0 := congrArg (fun n => n.testBit k) h
    simp only [Nat.testBit_and, hk, Bool.and_true, Nat.zero_testBit] at h0
    exact h0
  · intro h
    apply Nat.eq_of_testBit_eq
    intro k
    rw [Nat.testBit_and, Nat.zero_testBit]
    cases hb : b.testBit k
    · simp
    · simp [h k hb]

theorem testBit_not32_mask {b k : Nat} (hk : k < 32) (hne : b - 97 ≠ k) :
    (not32 (to_letter_mask b)).testBit k = true := by
  have h32 : (4294967295 : Nat) = 2 ^ 32 - 1 := by norm_num
  rw [not32, to_letter_mask_eq_pow, Nat.testBit_xor, h32,
    Nat.testBit_two_pow_sub_one, Nat.testBit_two_pow]
  simp [hk, hne]

theorem compare_here_byte {goal guess : Word} {i : Fin 5}
    (h : (Outcome.compare goal guess).outcomes i = LetterOutcome.Here) :
    goal.bytes i = guess.bytes i :=
  ((compare_spec_aux goal guess i).1.mp h).symm

theorem compare_elsewhere_byte {goal guess : Word} {i : Fin 5}
    (h : (Outcome.compare goal guess).outcomes i = LetterOutcome.Elsewhere) :
    goal.bytes i ≠ guess.bytes i ∧ ∃ j : Fin 5, goal.bytes j = guess.bytes i := by
  have hc := (compare_spec_aux goal guess i).2.1.mp h
  exact ⟨fun hb => hc.1 hb.symm, hc.2⟩

theorem compare_nowhere_byte {goal guess : Word} {i : Fin 5}
    (h : (Outcome.compare goal guess).outcomes i = LetterOutcome.Nowhere) :
    ∀ j : Fin 5, goal.bytes j ≠ guess.bytes i :=
  ((compare_spec_aux goal guess i).2.2.mp h).2

theorem mask_testBit_imp_letters {g : Word} {b k : Nat} (j : Fin 5)
    (hj : g.bytes j = b) (hk : (to_letter_mask b).testBit k = true) :
    g.letters.testBit k = true := by
  rw [testBit_to_letter_mask] at hk
  have hbk : b - 97 = k := of_decide_eq_true hk
  exact (testBit_letters g k).mpr ⟨j, by rw [hj]; exact hbk⟩

theorem mask_testBit_not_letters {g : Word} {b k : Nat} (hgv : g.valid)
    (hb : 97 ≤ b) (hnone : ∀ j : Fin 5, g.bytes j ≠ b)
    (hk : (to_letter_mask b).testBit k = true) :
    g.letters.testBit k = false := by
  rw [testBit_to_letter_mask] at hk
  have hbk : b - 97 = k := of_decide_eq_true hk
  cases hlet : g.letters.testBit k with
  | false => rfl
  | true =>
      obtain ⟨j, hj⟩ := (testBit_letters g k).mp hlet
      exact absurd (valid_byte_mask_inj (hgv j).1 hb (by rw [hj, hbk])) (hnone j)

theorem foldl_preserves_mem {α β : Type} (P : α → Prop) (f : α → β → α) :
    ∀ (l : List β) (a : α), P a → (∀ x y, y ∈ l → P x → P (f x y)) → P (l.foldl f a) := by
  intro l
  induction l with
  | nil => intro a h _; exact h
  | cons b bs ih =>
      intro a h hstep
      exact ih (f a b) (hstep a b (List.mem_cons_self b bs) h)
        (fun x y hy hx => hstep x y (List.mem_cons_of_mem b hy) hx)

/-- One honest refinement step keeps the true goal matching. -/
theorem honest_step_matchesSpec (g w : Word) (hgv : g.valid) (hwv : w.valid)
    (q : Pattern) (i : Fin 5) (hq : matchesSpec q g) :
    matchesSpec (Pattern.refineStep w (Outcome.compare g w) q i) g := by
  obtain ⟨h1, h2, h3⟩ := hq
  rw [and_eq_self_iff_subset] at h1
  rw [and_eq_zero_iff_none] at h2
  have hgi := hgv i
  have hwi := hwv i
  cases ho : (Outcome.compare g w).outcomes i
  · -- Nowhere
    have hnone := compare_nowhere_byte ho
    simp only [Pattern.refineStep, ho]
    refine ⟨(and_eq_self_iff_subset _ _).mpr h1, ?_, ?_⟩
    · rw [and_eq_zero_iff_none]
      intro k hk
      rw [Nat.testBit_or, Bool.or_eq_true] at hk
      rcases hk with hk | hk
      · exact h2 k hk
      · exact mask_testBit_not_letters hgv hwi.1 hnone hk
    · intro i2
      have hgi2 := hgv i2
      rw [Nat.testBit_and, h3 i2, Bool.true_and]
      apply testBit_not32_mask (by omega)
      have hne := hnone i2
      omega
  · -- Elsewhere
    obtain ⟨hne, j, hj⟩ := compare_elsewhere_byte ho
    simp only [Pattern.refineStep, ho]
    refine ⟨?_, (and_eq_zero_iff_none _ _).mpr h2, ?_⟩
    · rw [and_eq_self_iff_subset]
      intro k hk
      rw [Nat.testBit_or, Bool.or_eq_true] at hk
      rcases hk with hk | hk
      · exact h1 k hk
      · exact mask_testBit_imp_letters j hj hk
    · intro i2
      by_cases hii : i2 = i
      · subst hii
        dsimp only
        rw [Function.update_same, Nat.testBit_and, h3 i2, Bool.true_and]
        apply testBit_not32_mask (by omega)
        omega
      · dsimp only
        rw [Function.update_noteq hii]
        exact h3 i2
  · -- Here
    have heq := compare_here_byte ho
    simp only [Pattern.refineStep, ho]
    refine ⟨?_, (and_eq_zero_iff_none _ _).mpr h2, ?_⟩
    · rw [and_eq_self_iff_subset]
      intro k hk
      rw [Nat.testBit_or, Bool.or_eq_true] at hk
      rcases hk with hk | hk
      · exact h1 k hk
      · exact mask_testBit_imp_letters i heq hk
    · intro i2
      by_cases hii : i2 = i
      · subst hii
        dsimp only
        rw [Function.update_same, testBit_to_letter_mask]
        simp [heq]
      · dsimp only
        rw [Function.update_noteq hii]
        exact h3 i2

/-- A full honest `refine` call keeps the true goal matching. -/
theorem honest_refine_matchesSpec (g w : Word) (hgv : g.valid) (hwv : w.valid)
    (q : Pattern) (hq : matchesSpec q g) :
    matchesSpec (q.refine w (Outcome.compare g w)) g :=
  foldl_preserves (fun r => matchesSpec r g)
    (Pattern.refineStep w (Outcome.compare g w)) (List.finRange 5) q hq
    (fun x i hx => honest_step_matchesSpec g w hgv hwv x i hx)

/-- C10: a goal word that matches the constraint still matches after
refining with any guess and the outcome computed against that goal:
the true goal is never filtered out by its own feedback. -/
theorem goal_survives_refine (p : Pattern) (g w : Word)
    (hgv : g.valid) (hwv : w.valid) (h : p.matches g = true) :
    (p.refine w (Outcome.compare g w)).matches g = true := by
  rw [matches_iff_aux] at h
  rw [matches_iff_aux]
  exact honest_refine_matchesSpec g w hgv hwv p h

/-- C10 witness at a concrete input. -/
theorem goal_survives_refine_witness :
    (Pattern.new.refine wFGHIJ (Outcome.compare wABCDE wFGHIJ)).matches wABCDE = true :=
  goal_survives_refine Pattern.new wABCDE wFGHIJ (by decide) (by decide) (by decide)

/-- The empty constraint is satisfied by every valid word. -/
theorem matchesSpec_new (g : Word) (hgv : g.valid) : matchesSpec Pattern.new g := by
  refine ⟨by simp [Pattern.new], by simp [Pattern.new], ?_⟩
  intro i
  have hgi := hgv i
  show ((1 <<< 26) - 1 : Nat).testBit (g.bytes i - 97) = true
  have h26 : ((1 <<< 26) - 1 : Nat) = 2 ^ 26 - 1 := by decide
  rw [h26, Nat.testBit_two_pow_sub_one]
  simp
  omega

/-- C9: in every constraint state reachable from the empty constraint
by refining with outcomes computed against one fixed goal, the
positive and negative letter sets are disjoint. -/
theorem reachable_pos_neg_disjoint (goal : Word) (guesses : List Word)
    (hgv : goal.valid) (hgs : ∀ w ∈ guesses, w.valid) :
    (play goal guesses).positive_letters &&& (play goal guesses).negative_letters = 0 := by
  have hmain := foldl_preserves_mem (fun q => matchesSpec q goal)
    (fun p w => p.refine w (Outcome.compare goal w)) guesses Pattern.new
    (matchesSpec_new goal hgv)
    (fun q w hw hq => honest_refine_matchesSpec goal w hgv (hgs w hw) q hq)
  obtain ⟨h1, h2, _⟩ := hmain
  rw [and_eq_self_iff_subset] at h1
  rw [and_eq_zero_iff_none] at h2
  apply Nat.eq_of_testBit_eq
  intro k
  rw [Nat.testBit_and, Nat.zero_testBit]
  cases hpos : (play goal guesses).positive_letters.testBit k
  · simp
  · cases hneg : (play goal guesses).negative_letters.testBit k
    · simp
    · exact absurd (h2 k hneg) (by simp [h1 k hpos])

/-- C9 witness at a concrete input. -/
theorem reachable_pos_neg_disjoint_witness :
    (play wABCDE [wFGHIJ, wAAAAA]).positive_letters &&&
      (play wABCDE [wFGHIJ, wAAAAA]).negative_letters = 0 :=
  reachable_pos_neg_disjoint wABCDE [wFGHIJ, wAAAAA] (by decide) (by decide)

theorem best_from_eq_foldl (p : Pattern) (g0 : Word) (gs pool : List Word) :
    best_from p (g0 :: gs) pool =
      pool.foldl (maxByStep (min_confidence p (g0 :: gs))) none := rfl

theorem maxby_spec_aux (f : Word → Int) (pool : List Word) :
    pool = [] ∨
      ∃ w l1 l2, pool = l1 ++ w :: l2 ∧
        pool.foldl (maxByStep f) none = some (w, f w) ∧
        (∀ v ∈ l1, f v ≤ f w) ∧ (∀ v ∈ l2, f v < f w) := by
  induction pool using List.reverseRecOn with
  | nil => exact Or.inl rfl
  | append_singleton l x ih =>
      right
      rw [List.foldl_append]
      rcases ih with hnil | ⟨w, l1, l2, hdecomp, hfold, hle, hlt⟩
      · subst hnil
        exact ⟨x, [], [], by simp, rfl, by simp, by simp⟩
      · rw [hfold]
        by_cases hcmp : f w > f x
        · refine ⟨w, l1, l2 ++ [x], by rw [hdecomp]; simp, ?_, hle, ?_⟩
          · simp [maxByStep, hcmp]
          · intro v hv
            rcases List.mem_append.mp hv with h | h
            · exact hlt v h
            · have hx : v = x := by simpa using h
              subst hx
              exact hcmp
        · have hxw : f w ≤ f x := le_of_not_lt hcmp
          refine ⟨x, l, [], by simp, ?_, ?_, by simp⟩
          · simp [maxByStep, hcmp]
          · intro v hv
            rw [hdecomp] at hv
            rcases List.mem_append.mp hv with h | h
            · exact le_trans (hle v h) hxw
            · rcases List.mem_cons.mp h with h | h
              · subst h; exact hxw
              · exact le_trans (le_of_lt (hlt v h)) hxw

/-- `best_from` on a nonempty pool returns the last candidate
attaining the maximal `min_confidence`, paired with that score. -/
theorem best_from_spec (p : Pattern) (g0 : Word) (gs pool : List Word)
    (hne : pool ≠ []) :
    ∃ w l1 l2, pool = l1 ++ w :: l2 ∧
      best_from p (g0 :: gs) pool = some (w, min_confidence p (g0 :: gs) w) ∧
      (∀ v ∈ l1, min_confidence p (g0 :: gs) v ≤ min_confidence p (g0 :: gs) w) ∧
      (∀ v ∈ l2, min_confidence p (g0 :: gs) v < min_confidence p (g0 :: gs) w) := by
  rcases maxby_spec_aux (min_confidence p (g0 :: gs)) pool with h | h
  · exact absurd h hne
  · rw [best_from_eq_foldl]
    exact h

theorem foldl_min_neg_map (f : Word → Int) (t : List Word) :
    ∀ h : Int, (t.map (fun g => -(f g))).foldl min (-h) = -((t.map f).foldl max h) := by
  induction t with
  | nil => intro h; simp
  | cons a as ih =>
      intro h
      simp only [List.map_cons, List.foldl_cons]
      rw [min_neg_neg]
      exact ih (max h (f a))

/-- A candidate's `min_confidence` is the negation of its worst-case
remaining goal count. -/
theorem min_confidence_eq_neg_worstCase (p : Pattern) (goals : List Word) (w : Word) :
    min_confidence p goals w = -(worstCase p goals w) := by
  unfold min_confidence worstCase goal_confidence
  cases goals with
  | nil => simp
  | cons g0 gs =>
      simp only [List.map_cons]
      exact foldl_min_neg_map
        (fun g => matching_count (p.refine w (Outcome.compare g w)) (g0 :: gs)) gs
        (matching_count (p.refine w (Outcome.compare g0 w)) (g0 :: gs))

/-- C2 counterexample: with a one-word goal pool and the pool
`[abcde, fghij]`, both candidates score `-1`, yet `best_from` returns
the second candidate, not the first one in iteration order. -/
theorem best_from_tie_returns_last :
    best_from Pattern.new [wABCDE] [wABCDE, wFGHIJ] = some (wFGHIJ, -1) ∧
    min_confidence Pattern.new [wABCDE] wABCDE =
      min_confidence Pattern.new [wABCDE] wFGHIJ ∧
    wABCDE ≠ wFGHIJ := by
  decide

/-- C2 amended: on a nonempty candidate pool and nonempty goal pool,
`best_from` assigns each candidate the negation of its worst-case
remaining goal count as score and returns a candidate with maximal
score together with that score; among equally-scored candidates it
returns the one occurring *last* in the pool's iteration order
(Rust's `max_by_key` keeps the later element on ties). -/
theorem best_from_minimax (p : Pattern) (g0 : Word) (gs pool : List Word)
    (hne : pool ≠ []) :
    ∃ w, best_from p (g0 :: gs) pool = some (w, -(worstCase p (g0 :: gs) w)) ∧
      isLastBest (fun v => -(worstCase p (g0 :: gs) v)) pool w := by
  obtain ⟨w, l1, l2, hdec, hfold, hle, hlt⟩ := best_from_spec p g0 gs pool hne
  refine ⟨w, ?_, l1, l2, hdec, ?_, ?_⟩
  · rw [hfold, min_confidence_eq_neg_worstCase]
  · intro v hv
    have := hle v hv
    rw [min_confidence_eq_neg_worstCase, min_confidence_eq_neg_worstCase] at this
    exact this
  · intro v hv
    have := hlt v hv
    rw [min_confidence_eq_neg_worstCase, min_confidence_eq_neg_worstCase] at this
    exact this

/-- C2 amended witness at a concrete input. -/
theorem best_from_minimax_witness :
    ∃ w, best_from Pattern.new [wABCDE] [wABCDE, wFGHIJ] =
        some (w, -(worstCase Pattern.new [wABCDE] w)) ∧
      isLastBest (fun v => -(worstCase Pattern.new [wABCDE] v)) [wABCDE, wFGHIJ] w :=
  best_from_minimax Pattern.new wABCDE [] [wABCDE, wFGHIJ] (by decide)

theorem best_from_superset_ge (p : Pattern) (goals dict : List Word)
    (hg : goals ≠ []) (hsub : ∀ v ∈ goals, v ∈ dict) :
    ∃ bd bdc bg bgc,
      best_from p goals dict = some (bd, bdc) ∧
      best_from p goals goals = some (bg, bgc) ∧
      bgc ≤ bdc := by
  cases goals with
  | nil => exact absurd rfl hg
  | cons g0 gs =>
      have hdne : dict ≠ [] := by
        intro h
        subst h
        exact absurd (hsub g0 (List.mem_cons_self g0 gs)) (by simp)
      obtain ⟨bd, l1, l2, hdec, hfold, hle, hlt⟩ := best_from_spec p g0 gs dict hdne
      obtain ⟨bg, m1, m2, hdec2, hfold2, _, _⟩ :=
        best_from_spec p g0 gs (g0 :: gs) (by simp)
      refine ⟨bd, _, bg, _, hfold, hfold2, ?_⟩
      have hbg_mem : bg ∈ g0 :: gs := by
        rw [hdec2]
        exact List.mem_append.mpr (Or.inr (List.mem_cons_self bg m2))
      have hbd_max : ∀ v ∈ dict,
          min_confidence p (g0 :: gs) v ≤ min_confidence p (g0 :: gs) bd := by
        intro v hv
        rw [hdec] at hv
        rcases List.mem_append.mp hv with h | h
        · exact hle v h
        · rcases List.mem_cons.mp h with h | h
          · subst h; exact le_refl _
          · exact le_of_lt (hlt v h)
      exact hbd_max bg (hsub bg hbg_mem)

/-- C4: when the goal pool is nonempty and contained in the dictionary
pool, both searches succeed and the dictionary-pool score is at least
the goal-pool score, so the source's `assert!(bdc >= bgc)` cannot
fail. -/
theorem dict_score_ge_goal_score (p : Pattern) (goals dict : List Word)
    (hg : goals ≠ []) (hsub : ∀ v ∈ goals, v ∈ dict) :
    ∃ bd bdc bg bgc,
      best_from p goals dict = some (bd, bdc) ∧
      best_from p goals goals = some (bg, bgc) ∧
      bdc ≥ bgc :=
  best_from_superset_ge p goals dict hg hsub

/-- C4 witness at a concrete input. -/
theorem dict_score_ge_goal_score_witness :
    ∃ bd bdc bg bgc,
      best_from Pattern.new [wABCDE] [wABCDE, wFGHIJ] = some (bd, bdc) ∧
      best_from Pattern.new [wABCDE] [wABCDE] = some (bg, bgc) ∧
      bdc ≥ bgc :=
  dict_score_ge_goal_score Pattern.new [wABCDE] [wABCDE, wFGHIJ] (by decide) (by decide)

/-- C3: under the same preconditions, `recommended_guess` returns the
goal-pool best (with its score) when `goal_score + 1 >= dict_score`,
and the dictionary-pool best (with its score) otherwise. -/
theorem recommended_guess_selects (p : Pattern) (goals dict : List Word)
    (hg : goals ≠ []) (_hd : dict ≠ []) (hsub : ∀ v ∈ goals, v ∈ dict) :
    ∃ bd bdc bg bgc,
      best_from p goals dict = some (bd, bdc) ∧
      best_from p goals goals = some (bg, bgc) ∧
      recommended_guess p goals dict =
        (if bgc + 1 ≥ bdc then some (bg, bgc) else some (bd, bdc)) := by
  obtain ⟨bd, bdc, bg, bgc, h1, h2, hge⟩ := best_from_superset_ge p goals dict hg hsub
  refine ⟨bd, bdc, bg, bgc, h1, h2, ?_⟩
  unfold recommended_guess
  rw [h1, h2]
  simp only [ge_iff_le, hge, if_true]

/-- C3 witness at a concrete input. -/
theorem recommended_guess_selects_witness :
    ∃ bd bdc bg bgc,
      best_from Pattern.new [wABCDE] [wABCDE, wFGHIJ] = some (bd, bdc) ∧
      best_from Pattern.new [wABCDE] [wABCDE] = some (bg, bgc) ∧
      recommended_guess Pattern.new [wABCDE] [wABCDE, wFGHIJ] =
        (if bgc + 1 ≥ bdc then some (bg, bgc) else some (bd, bdc)) :=
  recommended_guess_selects Pattern.new [wABCDE] [wABCDE, wFGHIJ]
    (by decide) (by decide) (by decide)

end Wordle

